import Mathlib

/-!
Verification of the distributed global-to-local indexed gather primitive and the
cell-center computations of `tuto3_compute_centers.ipynb`.

The notebook itself contains `DIndexer` (a thin wrapper converting the 1-based
CGNS connectivity to 0-based global indices before delegating to maia's
`GlobalIndexer`), `compute_cc_seq` and `compute_cc_dist`.  The indexer core
(DistributionTable, ownership resolution, exchange plan, `take`) lives in the
external maia library, so it is modelled here from the specification's
component design: ownership by interval search over the prefix-sum bounds,
a plan grouping each request by destination rank with its originating position
and owner-local offset, and a `take` that gathers each destination's payload
and scatters it back into request order.  The two variable-size message rounds
are simulated by direct reads of each destination rank's local slice: the
simulation is deterministic, which is exactly the spec's claim that the
position-map scatter makes the result independent of delivery interleaving.
-/

namespace MaiaSpec

/-- Error kinds of the indexer core, from the spec's error-handling design. -/
inductive IndexerError
  | InvalidDistribution
  | InconsistentDistribution
  | IndexOutOfRange
  | ShapeMismatch
  deriving DecidableEq

/-- Modelled from the spec: `DistributionTable.build(counts_per_worker)` computes the
prefix sums `bounds[p] = c0 + ... + c(p-1)` and fails with `InvalidDistribution`
on a negative count.  (The collective cross-check for `InconsistentDistribution`
is degenerate in this single-image simulation: every worker holds the same list.) -/
def buildBounds (counts : List Int) : Except IndexerError (List Nat) :=
  if counts.all (fun c => decide (0 ≤ c)) then
    Except.ok ((counts.map Int.toNat).scanl (· + ·) 0)
  else
    Except.error IndexerError.InvalidDistribution

/-- Modelled from the spec: the ownership search over the upper bounds
`bounds[1], ..., bounds[P]`: the owner of `g` is the first rank `p` with
`g < bounds[p+1]`.  The spec implements this as a binary search over the sorted
bounds; the sequential search here returns the same rank. -/
def ownerSearch : List Nat → Nat → Option Nat
  | [], _ => none
  | b :: rest, g => if g < b then some 0 else (ownerSearch rest g).map (· + 1)

/-- Modelled from the spec: `owner_of(global_index) -> rank`, failing with
`IndexOutOfRange` when the index lies outside `[0, bounds[P])`. -/
def owner_of (bounds : List Nat) (g : Nat) : Except IndexerError Nat :=
  match ownerSearch (bounds.drop 1) g with
  | some d => Except.ok d
  | none => Except.error IndexerError.IndexOutOfRange

/-- Modelled from the spec: the exchange plan retains, per destination rank, the
request list as pairs `(originating position in requested_indices, owner-local
offset)`, plus the request count sizing the result buffer. -/
structure ExchangePlan where
  destEntries : List (List (Nat × Nat))
  nreq : Nat

/-- Modelled from the spec: plan build step 1 — walk `requested_indices` (the
position counter starts at `p`), keep the entries owned by destination rank `d`,
and record each as `(originating position, global index - bounds[d])`. -/
def planEntries (bounds : List Nat) (d : Nat) : Nat → List Nat → List (Nat × Nat)
  | _, [] => []
  | p, g :: rest =>
    let tail := planEntries bounds d (p + 1) rest
    if ownerSearch (bounds.drop 1) g = some d then
      (p, g - bounds.getD d 0) :: tail
    else
      tail

/-- Modelled from the spec: `build_plan(distribution, requested_indices, comm)`.
Each entry's owner is resolved via the ownership search; an unresolvable entry
makes the build fail with `IndexOutOfRange`.  The count and offset-list exchange
rounds of the spec move no payload and are absorbed by the simulation. -/
def build_plan (bounds : List Nat) (reqs : List Nat) : Except IndexerError ExchangePlan :=
  if reqs.all (fun g => (ownerSearch (bounds.drop 1) g).isSome) then
    Except.ok ⟨(List.range (bounds.length - 1)).map (fun d => planEntries bounds d 0 reqs), reqs.length⟩
  else
    Except.error IndexerError.IndexOutOfRange

/-- Modelled from the spec: `take(local_owned_array)` over a built plan — for each
destination rank gather the elements of that rank's slice at the retained offsets,
then scatter each value into the result at its originating position.  `locals`
holds every rank's slice, standing for the payload round of the collective. -/
def ExchangePlan.take (pl : ExchangePlan) (locals : List (List α)) (dflt : α) : List α :=
  let writes := (List.range pl.destEntries.length).flatMap
    (fun d => (pl.destEntries.getD d []).map
      (fun e => (e.1, (locals.getD d []).getD e.2 dflt)))
  writes.foldl (fun r e => r.set e.1 e.2) (List.replicate pl.nreq dflt)

/-- Modelled from the spec: the `GlobalIndexer` facade — build the plan for the
request pattern, then run `take`; a failed build yields no result. -/
def takeSim (bounds : List Nat) (reqs : List Nat) (locals : List (List α)) (dflt : α) : List α :=
  match build_plan bounds reqs with
  | Except.ok pl => pl.take locals dflt
  | Except.error _ => []

/-- The bounds of the distribution whose per-rank counts are the slice lengths. -/
def boundsOf (locals : List (List α)) : List Nat :=
  (locals.map List.length).scanl (· + ·) 0

/-- Embeds `DIndexer` from the notebook: `GlobalIndexer(distri, indices-1, comm)`
followed by `Take` — the 1-based connectivity indices are shifted to the 0-based
global numbering the indexer consumes.  (`Int.toNat` is exercised only on
nonnegative shifted indices in every property below.) -/
def DIndexer_take (distri : List Nat) (indices : List Int) (locals : List (List α)) (dflt : α) : List α :=
  takeSim distri (indices.map (fun i => (i - 1).toNat)) locals dflt

/-- A CGNS zone as the notebook touches it: the three coordinate arrays, the
`ElementConnectivity` array (1-based vertex indices), the remaining children
(opaque to both functions), and the list of `FlowSolution_t` children. -/
structure FlowSol where
  name : String
  loc : String
  fields : List (String × List ℚ)

structure Zone where
  cx : List ℚ
  cy : List ℚ
  cz : List ℚ
  connec : List Int
  otherNodes : List (String × List ℚ)
  flowSols : List FlowSol

/-- Models one element access of `np.take(a, i)` (default mode): a nonnegative
index reads position `i`, a negative index wraps to `len(a) + i`.  (numpy raises
on an index out of range; every property below keeps indices in range, where
`getD`'s default is never reached.) -/
def npTakeIdx (a : List ℚ) (i : Int) : ℚ :=
  if 0 ≤ i then a.getD i.toNat 0 else a.getD (a.length - (-i).toNat) 0

/-- Models `np.add.reduceat(a, idx)`: entry `k` is the sum of the segment
`a[idx[k] : idx[k+1]]`, the single element `a[idx[k]]` when `idx[k] >= idx[k+1]`,
and for the final index the sum of `a[idx[-1]:]`; an empty index list yields an
empty result. -/
def reduceatSum : List ℚ → List Nat → List ℚ
  | _, [] => []
  | a, [i] => [(a.drop i).sum]
  | a, i :: j :: rest =>
    (if i < j then ((a.drop i).take (j - i)).sum else a.getD i 0) :: reduceatSum a (j :: rest)

/-- Models `connec_idx[:-1]` where `connec_idx = 4*np.arange(n_elem+1)`. -/
def connecIdxFront (nElem : Nat) : List Nat :=
  ((List.range (nElem + 1)).map (fun k => 4 * k)).dropLast

/-- The per-cell means `np.add.reduceat(gathered, connec_idx[:-1]) / 4` shared by
both compute functions, applied to an already gathered coordinate list. -/
def ccFromGathered (gathered : List ℚ) (nElem : Nat) : List ℚ :=
  (reduceatSum gathered (connecIdxFront nElem)).map (fun q => q / 4)

/-- The sequential per-coordinate means: `np.add.reduceat(np.take(c, connec-1),
connec_idx[:-1]) / 4` from `compute_cc_seq`. -/
def ccof (coord : List ℚ) (connec : List Int) : List ℚ :=
  ccFromGathered (connec.map (fun i => npTakeIdx coord (i - 1))) (connec.length / 4)

/-- Embeds `compute_cc_seq` from the notebook: gather the vertex coordinates of
each cell locally with `np.take(c, connec-1)`, average groups of 4, and attach a
`FlowSolution` named `Centers` to the zone.  The Python function mutates the tree
in place and returns `None`; here that state effect is the returned zone. -/
def compute_cc_seq (z : Zone) : Zone :=
  { z with flowSols := z.flowSols ++
      [⟨"Centers", "CellCenter",
        [("CCX", ccof z.cx z.connec), ("CCY", ccof z.cy z.connec),
         ("CCZ", ccof z.cz z.connec)]⟩] }

/-- Embeds `compute_cc_dist` from the notebook: the same computation on a
distributed tree, with the local gather replaced by `DIndexer.take` over the
zone's vertex distribution.  `cxs`, `cys`, `czs` hold every rank's coordinate
slices (the communication the indexer performs); the vertex bounds are the
prefix sums of the slice lengths, which is the maia invariant tying
`get_Distribution(zone, 'Vertex')` to the stored slices. -/
def compute_cc_dist (z : Zone) (cxs cys czs : List (List ℚ)) : Zone :=
  let vtxBounds := boundsOf cxs
  let nElem := z.connec.length / 4
  { z with flowSols := z.flowSols ++
      [⟨"Centers", "CellCenter",
        [("CCX", ccFromGathered (DIndexer_take vtxBounds z.connec cxs 0) nElem),
         ("CCY", ccFromGathered (DIndexer_take vtxBounds z.connec cys 0) nElem),
         ("CCZ", ccFromGathered (DIndexer_take vtxBounds z.connec czs 0) nElem)]⟩] }

/-- The prefix-sum bounds of a list of per-rank counts. -/
def prefBounds (cs : List Nat) : List Nat :=
  cs.scanl (· + ·) 0

end MaiaSpec

namespace MaiaSpec

theorem boundsOf_eq_prefBounds (locals : List (List α)) :
    boundsOf locals = prefBounds (locals.map List.length) := rfl

theorem scanl_add_shift (l : List Nat) (a : Nat) :
    List.scanl (· + ·) a l = (List.scanl (· + ·) 0 l).map (a + ·) := by
  induction l generalizing a with
  | nil => simp [List.scanl]
  | cons x t ih =>
    simp only [List.scanl_cons, List.map_cons, Nat.add_zero, List.cons_append, List.nil_append]
    rw [ih (a + x), ih (0 + x)]
    simp [List.map_map, Function.comp, Nat.add_assoc, Nat.zero_add]

theorem prefBounds_cons (c : Nat) (t : List Nat) :
    prefBounds (c :: t) = 0 :: (prefBounds t).map (c + ·) := by
  simp only [prefBounds, List.scanl_cons, List.singleton_append]
  rw [show (0 + c) = c by omega, scanl_add_shift]

theorem prefBounds_head_tail (cs : List Nat) :
    prefBounds cs = 0 :: (prefBounds cs).drop 1 := by
  cases cs <;> rfl

theorem prefBounds_length (cs : List Nat) :
    (prefBounds cs).length = cs.length + 1 := by
  simp [prefBounds, List.length_scanl]

theorem ownerSearch_lt_length {bs : List Nat} {g d : Nat}
    (h : ownerSearch bs g = some d) : d < bs.length := by
  induction bs generalizing d with
  | nil => simp [ownerSearch] at h
  | cons b rest ih =>
    simp only [ownerSearch] at h
    by_cases hg : g < b
    · rw [if_pos hg] at h
      cases h
      simp
    · rw [if_neg hg] at h
      obtain ⟨d', hd', rfl⟩ := Option.map_eq_some'.mp h
      have := ih hd'
      simp only [List.length_cons]
      omega

theorem ownerSearch_map_add {c g : Nat} (bs : List Nat) (hcg : c ≤ g) :
    ownerSearch (bs.map (c + ·)) g = ownerSearch bs (g - c) := by
  induction bs with
  | nil => rfl
  | cons b rest ih =>
    simp only [List.map_cons, ownerSearch]
    rw [ih]
    by_cases hb : g - c < b
    · rw [if_pos (by omega), if_pos hb]
    · rw [if_neg (by omega), if_neg hb]

theorem ownerSearch_prefBounds_cons (c : Nat) (t : List Nat) (g : Nat) :
    ownerSearch ((prefBounds (c :: t)).drop 1) g =
      if g < c then some 0
      else (ownerSearch ((prefBounds t).drop 1) (g - c)).map (· + 1) := by
  rw [prefBounds_cons]
  simp only [List.drop_succ_cons, List.drop_zero]
  conv_lhs => rw [prefBounds_head_tail t]
  simp only [List.map_cons, Nat.add_zero, ownerSearch]
  by_cases hg : g < c
  · simp [hg]
  · simp only [hg, if_false]
    rw [ownerSearch_map_add _ (by omega)]

theorem prefBounds_getD_zero (cs : List Nat) : (prefBounds cs).getD 0 0 = 0 := by
  rw [prefBounds_head_tail cs]
  rfl

theorem prefBounds_cons_getD_succ (c : Nat) (t : List Nat) (d : Nat) (hd : d ≤ t.length) :
    (prefBounds (c :: t)).getD (d + 1) 0 = c + (prefBounds t).getD d 0 := by
  rw [prefBounds_cons]
  have hlen : d < ((prefBounds t).map (c + ·)).length := by
    simp [prefBounds_length]
    omega
  have hlen' : d < (prefBounds t).length := by
    simp [prefBounds_length]
    omega
  rw [List.getD_cons_succ, List.getD_eq_getElem _ _ hlen, List.getElem_map,
    List.getD_eq_getElem _ _ hlen']

/-- Interval soundness of the ownership search: the returned rank really owns
the index. -/
theorem ownerSearch_interval {cs : List Nat} {g d : Nat}
    (h : ownerSearch ((prefBounds cs).drop 1) g = some d) :
    d < cs.length ∧ (prefBounds cs).getD d 0 ≤ g ∧ g < (prefBounds cs).getD (d + 1) 0 := by
  induction cs generalizing g d with
  | nil => simp [prefBounds, List.scanl, ownerSearch] at h
  | cons c t ih =>
    rw [ownerSearch_prefBounds_cons] at h
    by_cases hg : g < c
    · simp only [hg, if_true, Option.some.injEq] at h
      subst h
      refine ⟨by simp, ?_, ?_⟩
      · rw [prefBounds_getD_zero]
        omega
      · rw [prefBounds_cons_getD_succ c t 0 (by omega), prefBounds_getD_zero]
        omega
    · simp only [hg, if_false, Option.map_eq_some'] at h
      obtain ⟨d', hd', rfl⟩ := h
      obtain ⟨hd'len, hlo, hhi⟩ := ih hd'
      refine ⟨by simp; omega, ?_, ?_⟩
      · rw [prefBounds_cons_getD_succ c t d' (by omega)]
        omega
      · rw [prefBounds_cons_getD_succ c t (d' + 1) (by omega)]
        omega

/-- The ownership search fails exactly on the indices at or beyond the total. -/
theorem ownerSearch_none_iff (cs : List Nat) (g : Nat) :
    ownerSearch ((prefBounds cs).drop 1) g = none ↔ cs.sum ≤ g := by
  induction cs generalizing g with
  | nil => simp [prefBounds, List.scanl, ownerSearch]
  | cons c t ih =>
    rw [ownerSearch_prefBounds_cons]
    by_cases hg : g < c
    · simp [hg]
      omega
    · simp only [hg, if_false, Option.map_eq_none', ih, List.sum_cons]
      omega

/-- Every in-range index has an owner, and that owner's interval contains it. -/
theorem ownerSearch_exists {cs : List Nat} {g : Nat} (hg : g < cs.sum) :
    ∃ d, ownerSearch ((prefBounds cs).drop 1) g = some d ∧ d < cs.length ∧
      (prefBounds cs).getD d 0 ≤ g ∧ g < (prefBounds cs).getD (d + 1) 0 := by
  cases hsearch : ownerSearch ((prefBounds cs).drop 1) g with
  | none =>
    rw [ownerSearch_none_iff] at hsearch
    omega
  | some d =>
    exact ⟨d, rfl, ownerSearch_interval hsearch⟩

/-- Reading the concatenated global array at an in-range index is reading the
owner's slice at the owner-local offset. -/
theorem join_getD_owner (locals : List (List α)) (dflt : α) :
    ∀ (g d : Nat), ownerSearch ((boundsOf locals).drop 1) g = some d →
      locals.flatten.getD g dflt =
        (locals.getD d []).getD (g - (boundsOf locals).getD d 0) dflt := by
  induction locals with
  | nil =>
    intro g d h
    simp [boundsOf, prefBounds, List.scanl, ownerSearch] at h
  | cons a t ih =>
    intro g d h
    rw [boundsOf_eq_prefBounds, List.map_cons] at h ⊢
    rw [ownerSearch_prefBounds_cons] at h
    by_cases hg : g < a.length
    · rw [if_pos hg] at h
      cases h
      rw [List.flatten_cons, List.getD_append _ _ _ _ hg, prefBounds_getD_zero]
      simp
    · rw [if_neg hg] at h
      obtain ⟨d', hd', rfl⟩ := Option.map_eq_some'.mp h
      have hd'len : d' < t.length := by
        have := ownerSearch_lt_length hd'
        simpa [prefBounds_length] using this
      rw [List.flatten_cons, List.getD_append_right _ _ _ _ (by omega),
        prefBounds_cons_getD_succ _ _ _ (by simp; omega)]
      rw [show g - (a.length + (prefBounds (t.map List.length)).getD d' 0)
            = g - a.length - (prefBounds (t.map List.length)).getD d' 0 from by omega]
      rw [ih (g - a.length) d' hd']
      simp [boundsOf_eq_prefBounds]

/-- With every request in range, plan build succeeds and yields the grouped
per-destination entries. -/
theorem build_plan_ok (cs : List Nat) (reqs : List Nat)
    (h : ∀ g ∈ reqs, g < cs.sum) :
    build_plan (prefBounds cs) reqs =
      Except.ok ⟨(List.range cs.length).map (fun d => planEntries (prefBounds cs) d 0 reqs),
        reqs.length⟩ := by
  have hall : reqs.all (fun g => (ownerSearch ((prefBounds cs).drop 1) g).isSome) = true := by
    rw [List.all_eq_true]
    intro g hg
    obtain ⟨d, hd, -⟩ := ownerSearch_exists (h g hg)
    simp only [hd, Option.isSome_some]
  rw [build_plan, if_pos hall, prefBounds_length, Nat.add_sub_cancel]

theorem planEntries_pos_ge (bounds : List Nat) (d : Nat) :
    ∀ (p0 : Nat) (reqs : List Nat) (e : Nat × Nat), e ∈ planEntries bounds d p0 reqs → p0 ≤ e.1 := by
  intro p0 reqs
  induction reqs generalizing p0 with
  | nil =>
    intro e h
    simp [planEntries] at h
  | cons g rest ih =>
    intro e h
    simp only [planEntries] at h
    by_cases hc : ownerSearch (bounds.drop 1) g = some d
    · rw [if_pos hc] at h
      rcases List.mem_cons.mp h with h1 | h2
      · subst h1; simp
      · have := ih (p0 + 1) e h2; omega
    · rw [if_neg hc] at h
      have := ih (p0 + 1) e h; omega

theorem planEntries_filter_lt (bounds : List Nat) (d p0 i : Nat) (reqs : List Nat)
    (hip : i < p0) :
    (planEntries bounds d p0 reqs).filter (fun e => e.1 == i) = [] := by
  rw [List.filter_eq_nil_iff]
  intro e he
  have := planEntries_pos_ge bounds d p0 reqs e he
  simp only [beq_iff_eq]
  omega

theorem planEntries_filter_getD (bounds : List Nat) (d : Nat) :
    ∀ (p0 : Nat) (reqs : List Nat) (j : Nat), j < reqs.length →
      (planEntries bounds d p0 reqs).filter (fun e => e.1 == p0 + j) =
        (if ownerSearch (bounds.drop 1) (reqs.getD j 0) = some d then
          [(p0 + j, reqs.getD j 0 - bounds.getD d 0)] else []) := by
  intro p0 reqs
  induction reqs generalizing p0 with
  | nil =>
    intro j hj
    simp at hj
  | cons g rest ih =>
    intro j hj
    match j with
    | 0 =>
      simp only [planEntries, List.getD_cons_zero, Nat.add_zero]
      by_cases hc : ownerSearch (bounds.drop 1) g = some d
      · rw [if_pos hc, if_pos hc, List.filter_cons_of_pos (by simp),
          planEntries_filter_lt bounds d (p0 + 1) p0 rest (by omega)]
      · rw [if_neg hc, if_neg hc,
          planEntries_filter_lt bounds d (p0 + 1) p0 rest (by omega)]
    | jj + 1 =>
      have hjj : jj < rest.length := by simpa using hj
      simp only [planEntries, List.getD_cons_succ]
      have hshift : p0 + (jj + 1) = (p0 + 1) + jj := by omega
      simp only [hshift]
      by_cases hc : ownerSearch (bounds.drop 1) g = some d
      · rw [if_pos hc, List.filter_cons_of_neg (by simp; omega), ih (p0 + 1) jj hjj]
      · rw [if_neg hc, ih (p0 + 1) jj hjj]

theorem planEntries_filter_zero (bounds : List Nat) (d : Nat) (reqs : List Nat) (j : Nat)
    (hj : j < reqs.length) :
    (planEntries bounds d 0 reqs).filter (fun e => e.1 == j) =
      (if ownerSearch (bounds.drop 1) (reqs.getD j 0) = some d then
        [(j, reqs.getD j 0 - bounds.getD d 0)] else []) := by
  have := planEntries_filter_getD bounds d 0 reqs j hj
  simpa using this

/-- The write list of a built plan against a family of local slices: the value
each destination rank sends back, tagged with its originating position. -/
def writesOf (pl : ExchangePlan) (locals : List (List α)) (dflt : α) : List (Nat × α) :=
  (List.range pl.destEntries.length).flatMap
    (fun d => (pl.destEntries.getD d []).map
      (fun e => (e.1, (locals.getD d []).getD e.2 dflt)))

/-- The scatter phase of `take`: write each tagged value at its position. -/
def scatter (ws : List (Nat × α)) (init : List α) : List α :=
  ws.foldl (fun r e => r.set e.1 e.2) init

theorem take_eq_scatter (pl : ExchangePlan) (locals : List (List α)) (dflt : α) :
    pl.take locals dflt = scatter (writesOf pl locals dflt) (List.replicate pl.nreq dflt) := rfl

theorem scatter_length (ws : List (Nat × α)) (init : List α) :
    (scatter ws init).length = init.length := by
  induction ws generalizing init with
  | nil => rfl
  | cons e t ih =>
    simp only [scatter, List.foldl_cons]
    rw [show List.foldl (fun r e => r.set e.1 e.2) (init.set e.1 e.2) t
        = scatter t (init.set e.1 e.2) from rfl, ih, List.length_set]

theorem scatter_getD_of_not_mem (ws : List (Nat × α)) (init : List α) (i : Nat) (dflt : α)
    (h : ∀ e ∈ ws, e.1 ≠ i) :
    (scatter ws init).getD i dflt = init.getD i dflt := by
  induction ws generalizing init with
  | nil => rfl
  | cons e t ih =>
    simp only [scatter, List.foldl_cons]
    rw [show List.foldl (fun r e => r.set e.1 e.2) (init.set e.1 e.2) t
        = scatter t (init.set e.1 e.2) from rfl,
      ih _ (fun e' he' => h e' (List.mem_cons_of_mem _ he')),
      List.getD_eq_getElem?_getD, List.getD_eq_getElem?_getD,
      List.getElem?_set_ne (h e (List.mem_cons_self _ _))]

theorem scatter_getD_unique (ws : List (Nat × α)) (init : List α) (i : Nat) (v : α) (dflt : α)
    (hf : ws.filter (fun e => e.1 == i) = [(i, v)]) (hi : i < init.length) :
    (scatter ws init).getD i dflt = v := by
  induction ws generalizing init with
  | nil => simp at hf
  | cons e t ih =>
    obtain ⟨j, w⟩ := e
    simp only [scatter, List.foldl_cons]
    rw [show List.foldl (fun r e => r.set e.1 e.2) (init.set j w) t
        = scatter t (init.set j w) from rfl]
    by_cases hji : j = i
    · subst hji
      rw [List.filter_cons_of_pos (by simp)] at hf
      obtain ⟨h1, ht⟩ := List.cons_eq_cons.mp hf
      have hw : w = v := by simpa using h1
      subst hw
      rw [scatter_getD_of_not_mem _ _ _ _ (by
        intro e' he'
        intro hcontra
        have : e' ∈ t.filter (fun e => e.1 == j) := by
          rw [List.mem_filter]
          exact ⟨he', by simp [hcontra]⟩
        simp [ht] at this)]
      rw [List.getD_eq_getElem?_getD, List.getElem?_set_self hi]
      rfl
    · rw [List.filter_cons_of_neg (by simpa using hji)] at hf
      exact ih (init.set j w) hf (by simpa using hi)

theorem flatMap_range_single {β : Type _} (n d : Nat) (x : β) (f : Nat → List β)
    (hd : d < n) (hfd : f d = [x]) (hother : ∀ d', d' < n → d' ≠ d → f d' = []) :
    (List.range n).flatMap f = [x] := by
  induction n with
  | zero => omega
  | succ m ih =>
    rw [List.range_succ, List.flatMap_append]
    by_cases hdm : d = m
    · subst hdm
      have : (List.range d).flatMap f = [] := by
        rw [List.flatMap_eq_nil_iff]
        intro d' hd'
        exact hother d' (by simp at hd'; omega) (by simp at hd'; omega)
      simp [this, hfd]
    · rw [ih (by omega) (fun d' h1 h2 => hother d' (by omega) h2)]
      have : f m = [] := hother m (by omega) (fun h => hdm h.symm)
      simp [this]

theorem range_map_getD {β : Type _} (n k : Nat) (f : Nat → List β) (hk : k < n) :
    ((List.range n).map f).getD k [] = f k := by
  have hlen : k < ((List.range n).map f).length := by simpa using hk
  rw [List.getD_eq_getElem _ _ hlen, List.getElem_map, List.getElem_range]

/-- Core correctness of the modelled indexer: the result has one slot per
request, and slot `i` holds the element of the concatenated global array at
global index `reqs[i]` — regardless of permutation or duplication. -/
theorem takeSim_correct (locals : List (List α)) (reqs : List Nat) (dflt : α)
    (hreq : ∀ g ∈ reqs, g < (locals.map List.length).sum) :
    (takeSim (boundsOf locals) reqs locals dflt).length = reqs.length ∧
    ∀ i, i < reqs.length →
      (takeSim (boundsOf locals) reqs locals dflt).getD i dflt =
        locals.flatten.getD (reqs.getD i 0) dflt := by
  have hbp := build_plan_ok (locals.map List.length) reqs hreq
  have htake : takeSim (boundsOf locals) reqs locals dflt =
      scatter (writesOf ⟨(List.range (locals.map List.length).length).map
          (fun d => planEntries (prefBounds (locals.map List.length)) d 0 reqs), reqs.length⟩
        locals dflt) (List.replicate reqs.length dflt) := by
    rw [takeSim, boundsOf_eq_prefBounds, hbp]
    rfl
  constructor
  · rw [htake, scatter_length, List.length_replicate]
  · intro i hi
    have hmem : reqs.getD i 0 ∈ reqs := by
      rw [List.getD_eq_getElem _ _ hi]
      exact List.getElem_mem hi
    obtain ⟨d, hd, hdlen, -, -⟩ := ownerSearch_exists (hreq _ hmem)
    have hdlen' : d < locals.length := by simpa using hdlen
    rw [htake]
    have hwf : (writesOf ⟨(List.range (locals.map List.length).length).map
          (fun d => planEntries (prefBounds (locals.map List.length)) d 0 reqs), reqs.length⟩
        locals dflt).filter (fun e => e.1 == i) =
        [(i, (locals.getD d []).getD
          (reqs.getD i 0 - (prefBounds (locals.map List.length)).getD d 0) dflt)] := by
      rw [writesOf, List.filter_flatMap]
      simp only [List.length_map, List.length_range]
      apply flatMap_range_single _ d _ _ hdlen'
      · rw [range_map_getD _ _ _ hdlen', List.filter_map]
        have hcomp : ((fun e : Nat × α => e.1 == i) ∘
            (fun e : Nat × Nat => (e.1, (locals.getD d []).getD e.2 dflt)))
            = (fun e : Nat × Nat => e.1 == i) := rfl
        rw [hcomp, planEntries_filter_zero _ _ _ _ hi, if_pos hd]
        simp
      · intro d' hd'n hd'd
        rw [range_map_getD _ _ _ hd'n, List.filter_map]
        have hcomp : ((fun e : Nat × α => e.1 == i) ∘
            (fun e : Nat × Nat => (e.1, (locals.getD d' []).getD e.2 dflt)))
            = (fun e : Nat × Nat => e.1 == i) := rfl
        rw [hcomp, planEntries_filter_zero _ _ _ _ hi, if_neg (by
          rw [hd]
          simp only [Option.some.injEq]
          exact fun h => hd'd h.symm)]
        simp
    rw [scatter_getD_unique _ _ _ _ _ hwf (by rw [List.length_replicate]; exact hi)]
    rw [join_getD_owner locals dflt (reqs.getD i 0) d hd, boundsOf_eq_prefBounds]

/-- The modelled `take` is the positional gather from the concatenated global
array. -/
theorem takeSim_eq_map (locals : List (List α)) (reqs : List Nat) (dflt : α)
    (hreq : ∀ g ∈ reqs, g < (locals.map List.length).sum) :
    takeSim (boundsOf locals) reqs locals dflt =
      reqs.map (fun g => locals.flatten.getD g dflt) := by
  obtain ⟨hlen, hget⟩ := takeSim_correct locals reqs dflt hreq
  apply List.ext_getElem
  · simp [hlen]
  · intro i h1 h2
    have hi : i < reqs.length := by simpa using h2
    have hgd := hget i hi
    rw [List.getD_eq_getElem _ _ (by omega), List.getD_eq_getElem _ _ hi] at hgd
    rw [hgd, List.getElem_map]

theorem map_getD_range (a : List α) (dflt : α) :
    (List.range a.length).map (fun g => a.getD g dflt) = a := by
  apply List.ext_getElem
  · simp
  · intro i h1 h2
    simp only [List.getElem_map, List.getElem_range]
    exact List.getD_eq_getElem a dflt h2

/-- C1.  Order preservation: for every worker count, distribution and request
pattern (permutations and duplicates allowed), `take` returns one slot per
requested index, and slot `i` holds the element of the conceptual global array
(the concatenation of the per-rank slices) at global index `reqs[i]`. -/
theorem take_order_preservation (locals : List (List α)) (reqs : List Nat) (dflt : α)
    (hreq : ∀ g ∈ reqs, g < (locals.map List.length).sum) :
    (takeSim (boundsOf locals) reqs locals dflt).length = reqs.length ∧
    ∀ i, i < reqs.length →
      (takeSim (boundsOf locals) reqs locals dflt).getD i dflt =
        locals.flatten.getD (reqs.getD i 0) dflt :=
  takeSim_correct locals reqs dflt hreq

/-- Witness for C1: the spec's P=2 example — bounds [0,3,6], rank 0 owning
[10,20,30], rank 1 owning [40,50,60]; rank 0 requesting [5,0,5,2] receives
[60,10,60,30] and rank 1 requesting [1] receives [20]. -/
theorem take_order_preservation_witness :
    (∀ g ∈ ([5, 0, 5, 2] : List Nat),
      g < (([[10, 20, 30], [40, 50, 60]] : List (List Int)).map List.length).sum) ∧
    ((takeSim (boundsOf ([[10, 20, 30], [40, 50, 60]] : List (List Int))) [5, 0, 5, 2]
        [[10, 20, 30], [40, 50, 60]] 0).length = ([5, 0, 5, 2] : List Nat).length ∧
      ∀ i, i < ([5, 0, 5, 2] : List Nat).length →
        (takeSim (boundsOf ([[10, 20, 30], [40, 50, 60]] : List (List Int))) [5, 0, 5, 2]
          [[10, 20, 30], [40, 50, 60]] 0).getD i 0 =
          ([[10, 20, 30], [40, 50, 60]] : List (List Int)).flatten.getD
            (([5, 0, 5, 2] : List Nat).getD i 0) 0) ∧
    takeSim (boundsOf ([[10, 20, 30], [40, 50, 60]] : List (List Int))) [5, 0, 5, 2]
      [[10, 20, 30], [40, 50, 60]] 0 = [60, 10, 60, 30] ∧
    takeSim (boundsOf ([[10, 20, 30], [40, 50, 60]] : List (List Int))) [1]
      [[10, 20, 30], [40, 50, 60]] 0 = [20] :=
  ⟨by decide,
    take_order_preservation ([[10, 20, 30], [40, 50, 60]] : List (List Int)) [5, 0, 5, 2]
      (0 : Int) (by decide),
    by decide, by decide⟩

/-- C3.  Round-trip identity: on a single-worker communicator, a GlobalIndexer
whose requests are the full local range `[0, N)` in increasing order returns
the local array unchanged. -/
theorem take_roundtrip_identity (a : List α) (dflt : α) :
    takeSim [0, a.length] (List.range a.length) [a] dflt = a := by
  have hb : boundsOf [a] = [0, a.length] := by
    simp [boundsOf, List.scanl]
  rw [← hb, takeSim_eq_map [a] (List.range a.length) dflt
    (by intro g hg; simpa using hg)]
  simp only [List.flatten_cons, List.flatten_nil, List.append_nil]
  exact map_getD_range a dflt

/-- C5.  Duplicate handling: duplicated requested indices are not merged — each
occurrence yields its own scatter entry, so the result is exactly the plain
positional gather, duplicate slots included. -/
theorem take_duplicates_transparent (locals : List (List α)) (reqs : List Nat) (dflt : α)
    (_hdup : ∃ i j, i < j ∧ j < reqs.length ∧ reqs.getD i 0 = reqs.getD j 0)
    (hreq : ∀ g ∈ reqs, g < (locals.map List.length).sum) :
    takeSim (boundsOf locals) reqs locals dflt =
      reqs.map (fun g => locals.flatten.getD g dflt) :=
  takeSim_eq_map locals reqs dflt hreq

/-- Witness for C5: [5,0,5,2] repeats global index 5 at positions 0 and 2; both
output slots receive the value 60. -/
theorem take_duplicates_transparent_witness :
    (∃ i j, i < j ∧ j < ([5, 0, 5, 2] : List Nat).length ∧
      ([5, 0, 5, 2] : List Nat).getD i 0 = ([5, 0, 5, 2] : List Nat).getD j 0) ∧
    (∀ g ∈ ([5, 0, 5, 2] : List Nat),
      g < (([[10, 20, 30], [40, 50, 60]] : List (List Int)).map List.length).sum) ∧
    takeSim (boundsOf ([[10, 20, 30], [40, 50, 60]] : List (List Int))) [5, 0, 5, 2]
      [[10, 20, 30], [40, 50, 60]] 0 =
      ([5, 0, 5, 2] : List Nat).map
        (fun g => ([[10, 20, 30], [40, 50, 60]] : List (List Int)).flatten.getD g 0) :=
  ⟨⟨0, 2, by decide, by decide, by decide⟩, by decide,
    take_duplicates_transparent [[10, 20, 30], [40, 50, 60]] [5, 0, 5, 2] 0
      ⟨0, 2, by decide, by decide, by decide⟩ (by decide)⟩

/-- C6.  Index-base conversion: `DIndexer` shifts the 1-based CGNS indices down
by one before handing them to the 0-based GlobalIndexer, so output slot `i`
holds the global element at 1-based position `indices[i]`. -/
theorem dindexer_one_based (locals : List (List α)) (indices : List Int) (dflt : α)
    (h : ∀ c ∈ indices, 1 ≤ c ∧ c.toNat ≤ (locals.map List.length).sum) :
    DIndexer_take (boundsOf locals) indices locals dflt =
      indices.map (fun c => locals.flatten.getD (c - 1).toNat dflt) := by
  rw [DIndexer_take, takeSim_eq_map locals _ dflt (by
    intro g hg
    obtain ⟨c, hc, rfl⟩ := List.mem_map.mp hg
    have := h c hc
    omega), List.map_map]
  rfl

/-- Witness for C6: 1-based requests [6,1,3] against global array
[10,20,30,40,50,60] produce [60,10,30]. -/
theorem dindexer_one_based_witness :
    (∀ c ∈ ([6, 1, 3] : List Int), 1 ≤ c ∧
      c.toNat ≤ (([[10, 20, 30], [40, 50, 60]] : List (List Int)).map List.length).sum) ∧
    DIndexer_take (boundsOf ([[10, 20, 30], [40, 50, 60]] : List (List Int))) [6, 1, 3]
      [[10, 20, 30], [40, 50, 60]] 0 =
      ([6, 1, 3] : List Int).map
        (fun c => ([[10, 20, 30], [40, 50, 60]] : List (List Int)).flatten.getD (c - 1).toNat 0) ∧
    DIndexer_take (boundsOf ([[10, 20, 30], [40, 50, 60]] : List (List Int))) [6, 1, 3]
      [[10, 20, 30], [40, 50, 60]] 0 = [60, 10, 30] :=
  ⟨by decide, dindexer_one_based [[10, 20, 30], [40, 50, 60]] [6, 1, 3] 0 (by decide), by decide⟩

/-- C4.  Plan reuse: a plan built once from a fixed (distribution, request
pattern) serves any number of `take` calls on differently-valued arrays of the
same owned shape; each call returns the correct gather for its own array, as if
it were the only call, with no further plan build. -/
theorem plan_reuse_three_takes (reqs : List Nat) (xs ys zs : List (List α)) (dflt : α)
    (pl : ExchangePlan)
    (hpl : build_plan (boundsOf xs) reqs = Except.ok pl)
    (hy : ys.map List.length = xs.map List.length)
    (hz : zs.map List.length = xs.map List.length)
    (hreq : ∀ g ∈ reqs, g < (xs.map List.length).sum) :
    pl.take xs dflt = reqs.map (fun g => xs.flatten.getD g dflt) ∧
    pl.take ys dflt = reqs.map (fun g => ys.flatten.getD g dflt) ∧
    pl.take zs dflt = reqs.map (fun g => zs.flatten.getD g dflt) := by
  have hby : boundsOf ys = boundsOf xs := by
    rw [boundsOf_eq_prefBounds, boundsOf_eq_prefBounds, hy]
  have hbz : boundsOf zs = boundsOf xs := by
    rw [boundsOf_eq_prefBounds, boundsOf_eq_prefBounds, hz]
  refine ⟨?_, ?_, ?_⟩
  · rw [show pl.take xs dflt = takeSim (boundsOf xs) reqs xs dflt from by rw [takeSim, hpl]]
    exact takeSim_eq_map xs reqs dflt hreq
  · rw [show pl.take ys dflt = takeSim (boundsOf ys) reqs ys dflt from by
      rw [takeSim, hby, hpl]]
    exact takeSim_eq_map ys reqs dflt (by rw [hy]; exact hreq)
  · rw [show pl.take zs dflt = takeSim (boundsOf zs) reqs zs dflt from by
      rw [takeSim, hbz, hpl]]
    exact takeSim_eq_map zs reqs dflt (by rw [hz]; exact hreq)

/-- Witness for C4: one plan over bounds [0,3,6] and requests [5,0,5,2]; three
`take` calls on three differently-valued arrays each return their own gather. -/
theorem plan_reuse_three_takes_witness :
    build_plan (boundsOf ([[10, 20, 30], [40, 50, 60]] : List (List Int))) [5, 0, 5, 2] =
      Except.ok ⟨[[(1, 0), (3, 2)], [(0, 2), (2, 2)]], 4⟩ ∧
    (([[1, 2, 3], [4, 5, 6]] : List (List Int)).map List.length =
      ([[10, 20, 30], [40, 50, 60]] : List (List Int)).map List.length) ∧
    (([[7, 8, 9], [1, 3, 5]] : List (List Int)).map List.length =
      ([[10, 20, 30], [40, 50, 60]] : List (List Int)).map List.length) ∧
    (∀ g ∈ ([5, 0, 5, 2] : List Nat),
      g < (([[10, 20, 30], [40, 50, 60]] : List (List Int)).map List.length).sum) ∧
    ((ExchangePlan.take ⟨[[(1, 0), (3, 2)], [(0, 2), (2, 2)]], 4⟩
        ([[10, 20, 30], [40, 50, 60]] : List (List Int)) 0 =
        ([5, 0, 5, 2] : List Nat).map
          (fun g => ([[10, 20, 30], [40, 50, 60]] : List (List Int)).flatten.getD g 0)) ∧
      (ExchangePlan.take ⟨[[(1, 0), (3, 2)], [(0, 2), (2, 2)]], 4⟩
        ([[1, 2, 3], [4, 5, 6]] : List (List Int)) 0 =
        ([5, 0, 5, 2] : List Nat).map
          (fun g => ([[1, 2, 3], [4, 5, 6]] : List (List Int)).flatten.getD g 0)) ∧
      (ExchangePlan.take ⟨[[(1, 0), (3, 2)], [(0, 2), (2, 2)]], 4⟩
        ([[7, 8, 9], [1, 3, 5]] : List (List Int)) 0 =
        ([5, 0, 5, 2] : List Nat).map
          (fun g => ([[7, 8, 9], [1, 3, 5]] : List (List Int)).flatten.getD g 0))) :=
  ⟨rfl, rfl, rfl, by decide,
    plan_reuse_three_takes [5, 0, 5, 2] ([[10, 20, 30], [40, 50, 60]] : List (List Int))
      [[1, 2, 3], [4, 5, 6]] [[7, 8, 9], [1, 3, 5]] (0 : Int)
      ⟨[[(1, 0), (3, 2)], [(0, 2), (2, 2)]], 4⟩ rfl rfl rfl (by decide)⟩

theorem prefBounds_getD_sum (cs : List Nat) :
    ∀ p, p ≤ cs.length → (prefBounds cs).getD p 0 = (cs.take p).sum := by
  induction cs with
  | nil =>
    intro p hp
    have hp0 : p = 0 := by simpa using hp
    subst hp0
    rfl
  | cons c t ih =>
    intro p hp
    match p with
    | 0 =>
      rw [prefBounds_getD_zero]
      simp
    | q + 1 =>
      rw [prefBounds_cons_getD_succ c t q (by simpa using hp),
        ih q (by simpa using hp)]
      simp [List.take_succ_cons, List.sum_cons]

theorem sum_toNat_of_nonneg (l : List Int) (h : ∀ c ∈ l, 0 ≤ c) :
    ((l.map Int.toNat).sum : Int) = l.sum := by
  induction l with
  | nil => simp
  | cons c t ih =>
    simp only [List.map_cons, List.sum_cons, Nat.cast_add]
    rw [ih (fun x hx => h x (List.mem_cons_of_mem _ hx))]
    have := h c (List.mem_cons_self _ _)
    omega

theorem take_sum_le (l : List Nat) (p q : Nat) (hpq : p ≤ q) :
    (l.take p).sum ≤ (l.take q).sum := by
  rw [show q = p + (q - p) from by omega, List.take_add, List.sum_append]
  omega

/-- C7.  Partition invariant: building from nonnegative per-worker counts yields
`bounds[0] = 0`, `bounds[p] = c0 + ... + c(p-1)`, `bounds[P] = Σ c`; the bounds
are non-decreasing and the owned intervals `[bounds[p], bounds[p+1])` partition
`[0, N)` with no gaps and no overlap. -/
theorem build_partition_invariant (counts : List Int) (hpos : ∀ c ∈ counts, 0 ≤ c) :
    ∃ bs, buildBounds counts = Except.ok bs ∧
      bs.length = counts.length + 1 ∧
      bs.getD 0 0 = 0 ∧
      (∀ p, p ≤ counts.length → (bs.getD p 0 : Int) = (counts.take p).sum) ∧
      (bs.getD counts.length 0 : Int) = counts.sum ∧
      (∀ p q, p ≤ q → q ≤ counts.length → bs.getD p 0 ≤ bs.getD q 0) ∧
      (∀ g : Nat, g < bs.getD counts.length 0 ↔
        ∃ p, p < counts.length ∧ bs.getD p 0 ≤ g ∧ g < bs.getD (p + 1) 0) ∧
      (∀ g p q, p < counts.length → q < counts.length →
        bs.getD p 0 ≤ g → g < bs.getD (p + 1) 0 →
        bs.getD q 0 ≤ g → g < bs.getD (q + 1) 0 → p = q) := by
  have hcond : counts.all (fun c => decide (0 ≤ c)) = true := by
    rw [List.all_eq_true]
    intro c hc
    exact decide_eq_true (hpos c hc)
  set cs : List Nat := counts.map Int.toNat with hcs
  have hlen : cs.length = counts.length := by simp [hcs]
  have hsum : ∀ p, p ≤ counts.length → ((cs.take p).sum : Int) = (counts.take p).sum := by
    intro p hp
    rw [hcs, ← List.map_take]
    exact sum_toNat_of_nonneg _ (fun c hc => hpos c (List.take_subset p counts hc))
  have hgd : ∀ p, p ≤ counts.length → (prefBounds cs).getD p 0 = (cs.take p).sum :=
    fun p hp => prefBounds_getD_sum cs p (by omega)
  have hmono : ∀ p q, p ≤ q → q ≤ counts.length →
      (prefBounds cs).getD p 0 ≤ (prefBounds cs).getD q 0 := by
    intro p q hpq hq
    rw [hgd p (by omega), hgd q hq]
    exact take_sum_le cs p q hpq
  have hN : (prefBounds cs).getD counts.length 0 = cs.sum := by
    rw [hgd counts.length (by omega), ← hlen, List.take_length]
  refine ⟨prefBounds cs, ?_, ?_, prefBounds_getD_zero cs, ?_, ?_, hmono, ?_, ?_⟩
  · rw [buildBounds, if_pos hcond]
    rfl
  · rw [prefBounds_length]
    omega
  · intro p hp
    rw [hgd p hp, hsum p hp]
  · rw [hgd counts.length (by omega), ← hlen, List.take_length]
    have h2 := hsum counts.length (by omega)
    rw [show cs.take counts.length = cs from by rw [← hlen, List.take_length],
      List.take_length] at h2
    exact h2
  · intro g
    constructor
    · intro hg
      rw [hN] at hg
      obtain ⟨d, -, hdlen, hlo, hhi⟩ := ownerSearch_exists hg
      exact ⟨d, by omega, hlo, hhi⟩
    · rintro ⟨p, hp, -, hhi⟩
      have := hmono (p + 1) counts.length (by omega) (by omega)
      omega
  · intro g p q hp hq hplo hphi hqlo hqhi
    rcases Nat.lt_trichotomy p q with h | h | h
    · have := hmono (p + 1) q (by omega) (by omega)
      omega
    · exact h
    · have := hmono (q + 1) p (by omega) (by omega)
      omega

/-- Witness for C7: counts [3,3] build to bounds [0,3,6] with the partition
properties. -/
theorem build_partition_invariant_witness :
    (∀ c ∈ ([3, 3] : List Int), 0 ≤ c) ∧
    (∃ bs, buildBounds [3, 3] = Except.ok bs ∧
      bs.length = ([3, 3] : List Int).length + 1 ∧
      bs.getD 0 0 = 0 ∧
      (∀ p, p ≤ ([3, 3] : List Int).length →
        (bs.getD p 0 : Int) = (([3, 3] : List Int).take p).sum) ∧
      (bs.getD ([3, 3] : List Int).length 0 : Int) = ([3, 3] : List Int).sum ∧
      (∀ p q, p ≤ q → q ≤ ([3, 3] : List Int).length → bs.getD p 0 ≤ bs.getD q 0) ∧
      (∀ g : Nat, g < bs.getD ([3, 3] : List Int).length 0 ↔
        ∃ p, p < ([3, 3] : List Int).length ∧ bs.getD p 0 ≤ g ∧ g < bs.getD (p + 1) 0) ∧
      (∀ g p q, p < ([3, 3] : List Int).length → q < ([3, 3] : List Int).length →
        bs.getD p 0 ≤ g → g < bs.getD (p + 1) 0 →
        bs.getD q 0 ≤ g → g < bs.getD (q + 1) 0 → p = q)) :=
  ⟨by decide, build_partition_invariant [3, 3] (by decide)⟩

/-- C8.  Out-of-range failure: on a built DistributionTable, `owner_of` fails
with `IndexOutOfRange` exactly when the index is at or beyond `bounds[P]`, and
otherwise returns the rank whose interval contains the index. -/
theorem owner_of_range_check (counts : List Int) (hpos : ∀ c ∈ counts, 0 ≤ c)
    (bs : List Nat) (hbs : buildBounds counts = Except.ok bs) (g : Nat) :
    (bs.getD counts.length 0 ≤ g →
      owner_of bs g = Except.error IndexerError.IndexOutOfRange) ∧
    (g < bs.getD counts.length 0 →
      ∃ d, owner_of bs g = Except.ok d ∧ d < counts.length ∧
        bs.getD d 0 ≤ g ∧ g < bs.getD (d + 1) 0) := by
  have hcond : counts.all (fun c => decide (0 ≤ c)) = true := by
    rw [List.all_eq_true]
    intro c hc
    exact decide_eq_true (hpos c hc)
  rw [buildBounds, if_pos hcond] at hbs
  have hbs' : bs = prefBounds (counts.map Int.toNat) := by
    cases hbs
    rfl
  subst hbs'
  set cs : List Nat := counts.map Int.toNat with hcs
  have hlen : cs.length = counts.length := by simp [hcs]
  have hN : (prefBounds cs).getD counts.length 0 = cs.sum := by
    rw [prefBounds_getD_sum cs counts.length (by omega), ← hlen, List.take_length]
  constructor
  · intro hg
    rw [hN] at hg
    have hnone : ownerSearch ((prefBounds cs).drop 1) g = none :=
      (ownerSearch_none_iff cs g).mpr hg
    rw [owner_of, hnone]
  · intro hg
    rw [hN] at hg
    obtain ⟨d, hd, hdlen, hlo, hhi⟩ := ownerSearch_exists hg
    refine ⟨d, ?_, by omega, hlo, hhi⟩
    rw [owner_of, hd]

/-- Witness for C8: on bounds [0,3,6] built from counts [3,3], requesting index
6 fails with `IndexOutOfRange`, while index 4 resolves to rank 1. -/
theorem owner_of_range_check_witness :
    (∀ c ∈ ([3, 3] : List Int), 0 ≤ c) ∧
    buildBounds [3, 3] = Except.ok [0, 3, 6] ∧
    owner_of [0, 3, 6] 6 = Except.error IndexerError.IndexOutOfRange ∧
    (∃ d, owner_of [0, 3, 6] 4 = Except.ok d ∧ d < ([3, 3] : List Int).length ∧
      ([0, 3, 6] : List Nat).getD d 0 ≤ 4 ∧ 4 < ([0, 3, 6] : List Nat).getD (d + 1) 0) :=
  ⟨by decide, rfl,
    (owner_of_range_check [3, 3] (by decide) [0, 3, 6] rfl 6).1 (by decide),
    (owner_of_range_check [3, 3] (by decide) [0, 3, 6] rfl 4).2 (by decide)⟩

theorem connecIdxFront_eq (n : Nat) :
    connecIdxFront n = (List.range n).map (fun k => 4 * k) := by
  rw [connecIdxFront, List.range_succ, List.map_append]
  simp

theorem connecIdxFront_getD (n k : Nat) (hk : k < n) :
    (connecIdxFront n).getD k 0 = 4 * k := by
  rw [connecIdxFront_eq]
  have hlen : k < ((List.range n).map (fun k => 4 * k)).length := by simpa using hk
  rw [List.getD_eq_getElem _ _ hlen, List.getElem_map, List.getElem_range]

theorem reduceatSum_length (a : List ℚ) :
    ∀ idx : List Nat, (reduceatSum a idx).length = idx.length := by
  intro idx
  induction idx with
  | nil => rfl
  | cons i rest ih =>
    cases rest with
    | nil => rfl
    | cons j rest' =>
      simp only [reduceatSum, List.length_cons]
      rw [ih]
      simp

theorem reduceatSum_getD_mid (a : List ℚ) :
    ∀ (idx : List Nat) (e : Nat), e + 1 < idx.length →
      (reduceatSum a idx).getD e 0 =
        (if idx.getD e 0 < idx.getD (e + 1) 0 then
          ((a.drop (idx.getD e 0)).take (idx.getD (e + 1) 0 - idx.getD e 0)).sum
        else a.getD (idx.getD e 0) 0) := by
  intro idx
  induction idx with
  | nil =>
    intro e he
    simp at he
  | cons i rest ih =>
    intro e he
    cases rest with
    | nil => simp at he
    | cons j rest' =>
      match e with
      | 0 => simp [reduceatSum]
      | ee + 1 =>
        have hee : ee + 1 < (j :: rest').length := by simpa using he
        simp only [reduceatSum, List.getD_cons_succ]
        exact ih ee hee

theorem reduceatSum_getD_last (a : List ℚ) :
    ∀ (idx : List Nat) (e : Nat), e + 1 = idx.length →
      (reduceatSum a idx).getD e 0 = (a.drop (idx.getD e 0)).sum := by
  intro idx
  induction idx with
  | nil =>
    intro e he
    simp at he
  | cons i rest ih =>
    intro e he
    cases rest with
    | nil =>
      have he0 : e = 0 := by simpa using he
      subst he0
      rfl
    | cons j rest' =>
      match e with
      | 0 => simp at he
      | ee + 1 =>
        have hee : ee + 1 = (j :: rest').length := by simpa using he
        simp only [reduceatSum, List.getD_cons_succ]
        exact ih ee hee

theorem take_four_sum (a : List ℚ) (m : Nat) (h : m + 4 ≤ a.length) :
    ((a.drop m).take 4).sum =
      a.getD m 0 + a.getD (m + 1) 0 + a.getD (m + 2) 0 + a.getD (m + 3) 0 := by
  have hlist : (a.drop m).take 4 =
      [a.getD m 0, a.getD (m + 1) 0, a.getD (m + 2) 0, a.getD (m + 3) 0] := by
    apply List.ext_getElem
    · simp only [List.length_take, List.length_drop]
      simp
      omega
    · intro k h1 h2
      have hk : k < 4 := by
        simp only [List.length_take, List.length_drop] at h1
        omega
      rw [List.getElem_take, List.getElem_drop]
      interval_cases k
      · simp only [List.getElem_cons_zero, Nat.add_zero]
        rw [List.getD_eq_getElem _ _ (by omega)]
      · simp only [List.getElem_cons_succ, List.getElem_cons_zero]
        rw [List.getD_eq_getElem _ _ (by omega)]
      · simp only [List.getElem_cons_succ, List.getElem_cons_zero]
        rw [List.getD_eq_getElem _ _ (by omega)]
      · simp only [List.getElem_cons_succ, List.getElem_cons_zero]
        rw [List.getD_eq_getElem _ _ (by omega)]
  rw [hlist]
  simp only [List.sum_cons, List.sum_nil]
  ring

theorem gathered_getD (coord : List ℚ) (connec : List Int) (j : Nat) (hj : j < connec.length)
    (h1 : 1 ≤ connec.getD j 1) :
    (connec.map (fun i => npTakeIdx coord (i - 1))).getD j 0 =
      coord.getD ((connec.getD j 1) - 1).toNat 0 := by
  rw [List.getD_eq_getElem _ _ (by simpa using hj), List.getElem_map]
  rw [List.getD_eq_getElem _ _ hj] at h1 ⊢
  rw [npTakeIdx, if_pos (by omega)]

theorem connec_getD_mem (connec : List Int) (j : Nat) (hj : j < connec.length) :
    connec.getD j 1 ∈ connec := by
  rw [List.getD_eq_getElem _ _ hj]
  exact List.getElem_mem hj

/-- Counterexample to C9 as stated: on connectivity [1,1,1] (length 3, not a
multiple of 4) the element count is 3 // 4 = 0, so the computed fields are
empty — the trailing entries are dropped, not folded into a last cell's sum. -/
theorem compute_cc_seq_trailing_cex :
    ([1, 1, 1] : List Int).length % 4 ≠ 0 ∧ 0 < ([1, 1, 1] : List Int).length ∧
    (compute_cc_seq ⟨[5], [5], [5], [1, 1, 1], [], []⟩).flowSols =
      [⟨"Centers", "CellCenter", [("CCX", []), ("CCY", []), ("CCZ", [])]⟩] :=
  ⟨by decide, by decide, rfl⟩

/-- C9 (amended).  `compute_cc_seq` attaches the fields `ccof` of each
coordinate; the output has `len(connec) // 4` cells; when the length is a
positive multiple of 4 every cell `e` gets the mean of its four vertex
coordinates; when at least one whole cell exists (length ≥ 4) the final cell's
value folds every trailing entry from offset `4*(n_elem-1)` onward, still
divided by 4; when the length is below 4 the result is empty (the entries are
dropped, producing no cell at all). -/
theorem compute_cc_seq_cell_means (z : Zone)
    (hrange : ∀ c ∈ z.connec, 1 ≤ c ∧ c ≤ (z.cx.length : Int)) :
    (compute_cc_seq z).flowSols = z.flowSols ++
      [⟨"Centers", "CellCenter",
        [("CCX", ccof z.cx z.connec), ("CCY", ccof z.cy z.connec),
         ("CCZ", ccof z.cz z.connec)]⟩] ∧
    (ccof z.cx z.connec).length = z.connec.length / 4 ∧
    (z.connec.length % 4 = 0 → ∀ e, e < z.connec.length / 4 →
      (ccof z.cx z.connec).getD e 0 =
        (z.cx.getD ((z.connec.getD (4 * e) 1) - 1).toNat 0 +
         z.cx.getD ((z.connec.getD (4 * e + 1) 1) - 1).toNat 0 +
         z.cx.getD ((z.connec.getD (4 * e + 2) 1) - 1).toNat 0 +
         z.cx.getD ((z.connec.getD (4 * e + 3) 1) - 1).toNat 0) / 4) ∧
    (4 ≤ z.connec.length →
      (ccof z.cx z.connec).getD (z.connec.length / 4 - 1) 0 =
        ((z.connec.drop (4 * (z.connec.length / 4 - 1))).map
          (fun c => z.cx.getD (c - 1).toNat 0)).sum / 4) ∧
    (z.connec.length < 4 → ccof z.cx z.connec = []) := by
  have hglen : (z.connec.map (fun i => npTakeIdx z.cx (i - 1))).length = z.connec.length :=
    List.length_map _ _
  have hcclen : (ccof z.cx z.connec).length = z.connec.length / 4 := by
    rw [ccof, ccFromGathered, List.length_map, reduceatSum_length, connecIdxFront_eq,
      List.length_map, List.length_range]
  have hgq : ∀ j, j < z.connec.length →
      (z.connec.map (fun i => npTakeIdx z.cx (i - 1))).getD j 0 =
        z.cx.getD ((z.connec.getD j 1) - 1).toNat 0 :=
    fun j hj => gathered_getD z.cx z.connec j hj ((hrange _ (connec_getD_mem _ j hj)).1)
  have hmap : ∀ e, e < z.connec.length / 4 →
      (ccof z.cx z.connec).getD e 0 =
        (reduceatSum (z.connec.map (fun i => npTakeIdx z.cx (i - 1)))
          (connecIdxFront (z.connec.length / 4))).getD e 0 / 4 := by
    intro e he
    have hlen1 : e < (reduceatSum (z.connec.map (fun i => npTakeIdx z.cx (i - 1)))
        (connecIdxFront (z.connec.length / 4))).length := by
      rw [reduceatSum_length, connecIdxFront_eq, List.length_map, List.length_range]
      exact he
    rw [ccof, ccFromGathered, List.getD_eq_getElem _ _ (by simpa using hlen1),
      List.getElem_map, List.getD_eq_getElem _ _ hlen1]
  refine ⟨rfl, hcclen, ?_, ?_, ?_⟩
  · intro hm e he
    rw [hmap e he]
    have hidx : (connecIdxFront (z.connec.length / 4)).length = z.connec.length / 4 := by
      rw [connecIdxFront_eq, List.length_map, List.length_range]
    rcases Nat.lt_or_ge (e + 1) (z.connec.length / 4) with he2 | he2
    · rw [reduceatSum_getD_mid _ _ e (by omega),
        connecIdxFront_getD _ _ he, connecIdxFront_getD _ _ he2,
        if_pos (by omega), show 4 * (e + 1) - 4 * e = 4 from by omega,
        take_four_sum _ _ (by rw [hglen]; omega)]
      rw [hgq (4 * e) (by omega), hgq (4 * e + 1) (by omega),
        hgq (4 * e + 2) (by omega), hgq (4 * e + 3) (by omega)]
    · have heq : e + 1 = z.connec.length / 4 := by omega
      rw [reduceatSum_getD_last _ _ e (by rw [hidx]; exact heq),
        connecIdxFront_getD _ _ he]
      have htk : ((z.connec.map (fun i => npTakeIdx z.cx (i - 1))).drop (4 * e)).take 4 =
          (z.connec.map (fun i => npTakeIdx z.cx (i - 1))).drop (4 * e) :=
        List.take_of_length_le (by rw [List.length_drop, hglen]; omega)
      rw [← htk, take_four_sum _ _ (by rw [hglen]; omega)]
      rw [hgq (4 * e) (by omega), hgq (4 * e + 1) (by omega),
        hgq (4 * e + 2) (by omega), hgq (4 * e + 3) (by omega)]
  · intro h4
    have hn1 : z.connec.length / 4 - 1 < z.connec.length / 4 := by omega
    rw [hmap _ hn1]
    have hidx : (connecIdxFront (z.connec.length / 4)).length = z.connec.length / 4 := by
      rw [connecIdxFront_eq, List.length_map, List.length_range]
    rw [reduceatSum_getD_last _ _ _ (by rw [hidx]; omega),
      connecIdxFront_getD _ _ hn1]
    have hdm : (z.connec.map (fun i => npTakeIdx z.cx (i - 1))).drop
          (4 * (z.connec.length / 4 - 1)) =
        (z.connec.drop (4 * (z.connec.length / 4 - 1))).map
          (fun i => npTakeIdx z.cx (i - 1)) :=
      (List.map_drop _ _ _).symm
    rw [hdm]
    have hcg : (z.connec.drop (4 * (z.connec.length / 4 - 1))).map
          (fun i => npTakeIdx z.cx (i - 1)) =
        (z.connec.drop (4 * (z.connec.length / 4 - 1))).map
          (fun c => z.cx.getD (c - 1).toNat 0) := by
      apply List.map_congr_left
      intro i hi
      have h1 := (hrange i (List.drop_subset _ _ hi)).1
      rw [npTakeIdx, if_pos (by omega)]
    rw [hcg]
  · intro h4
    have h0 : z.connec.length / 4 = 0 := by omega
    rw [ccof, ccFromGathered, h0]
    rfl

/-- The concrete zone used to witness C9: one tetra cell with 1-based
connectivity [1,2,3,4] over four vertices. -/
def zWitness9 : Zone :=
  ⟨[1, 2, 3, 4], [1, 2, 3, 4], [1, 2, 3, 4], [1, 2, 3, 4], [], []⟩

/-- Witness for C9 (amended), instantiated on `zWitness9`. -/
theorem compute_cc_seq_cell_means_witness :
    (∀ c ∈ zWitness9.connec, 1 ≤ c ∧ c ≤ (zWitness9.cx.length : Int)) ∧
    ((compute_cc_seq zWitness9).flowSols = zWitness9.flowSols ++
      [⟨"Centers", "CellCenter",
        [("CCX", ccof zWitness9.cx zWitness9.connec),
         ("CCY", ccof zWitness9.cy zWitness9.connec),
         ("CCZ", ccof zWitness9.cz zWitness9.connec)]⟩] ∧
    (ccof zWitness9.cx zWitness9.connec).length = zWitness9.connec.length / 4 ∧
    (zWitness9.connec.length % 4 = 0 → ∀ e, e < zWitness9.connec.length / 4 →
      (ccof zWitness9.cx zWitness9.connec).getD e 0 =
        (zWitness9.cx.getD ((zWitness9.connec.getD (4 * e) 1) - 1).toNat 0 +
         zWitness9.cx.getD ((zWitness9.connec.getD (4 * e + 1) 1) - 1).toNat 0 +
         zWitness9.cx.getD ((zWitness9.connec.getD (4 * e + 2) 1) - 1).toNat 0 +
         zWitness9.cx.getD ((zWitness9.connec.getD (4 * e + 3) 1) - 1).toNat 0) / 4) ∧
    (4 ≤ zWitness9.connec.length →
      (ccof zWitness9.cx zWitness9.connec).getD (zWitness9.connec.length / 4 - 1) 0 =
        ((zWitness9.connec.drop (4 * (zWitness9.connec.length / 4 - 1))).map
          (fun c => zWitness9.cx.getD (c - 1).toNat 0)).sum / 4) ∧
    (zWitness9.connec.length < 4 → ccof zWitness9.cx zWitness9.connec = [])) :=
  ⟨by decide, compute_cc_seq_cell_means zWitness9 (by decide)⟩

/-- On a single-worker communicator the distributed gather of `DIndexer`
coincides with the local gather `np.take(c, connec-1)`. -/
theorem dist_gather_eq_local (cx0 c : List ℚ) (connec : List Int)
    (hlen : c.length = cx0.length)
    (hrange : ∀ i ∈ connec, 1 ≤ i ∧ i ≤ (cx0.length : Int)) :
    DIndexer_take (boundsOf [cx0]) connec [c] 0 =
      connec.map (fun i => npTakeIdx c (i - 1)) := by
  have hb : boundsOf ([cx0] : List (List ℚ)) = boundsOf ([c] : List (List ℚ)) := by
    simp [boundsOf, hlen]
  rw [hb, DIndexer_take, takeSim_eq_map ([c] : List (List ℚ)) _ 0 (by
    intro g hg
    obtain ⟨i, hi, rfl⟩ := List.mem_map.mp hg
    have hr := hrange i hi
    have hl : c.length = cx0.length := hlen
    simp only [List.map_cons, List.map_nil, List.sum_cons, List.sum_nil]
    omega)]
  rw [List.map_map]
  apply List.map_congr_left
  intro i hi
  have h1 := (hrange i hi).1
  simp only [Function.comp]
  rw [show ([c] : List (List ℚ)).flatten = c from by simp]
  rw [npTakeIdx, if_pos (by omega)]

/-- C2.  On a single-worker communicator, `compute_cc_dist` attaches the same
`Centers` FlowSolution as `compute_cc_seq` on the equivalent sequential zone:
with the whole arrays as the only rank's slices, the distributed gather
coincides with the local gather, so CCX, CCY, CCZ agree field by field. -/
theorem compute_cc_dist_refines_seq_p1 (z : Zone)
    (_hmul : z.connec.length % 4 = 0) (_hpos : 0 < z.connec.length)
    (hrange : ∀ c ∈ z.connec, 1 ≤ c ∧ c ≤ (z.cx.length : Int))
    (hcy : z.cy.length = z.cx.length) (hcz : z.cz.length = z.cx.length) :
    compute_cc_dist z [z.cx] [z.cy] [z.cz] = compute_cc_seq z := by
  rw [compute_cc_dist, compute_cc_seq]
  rw [dist_gather_eq_local z.cx z.cx z.connec rfl hrange,
    dist_gather_eq_local z.cx z.cy z.connec hcy hrange,
    dist_gather_eq_local z.cx z.cz z.connec hcz hrange]
  rfl

/-- The concrete zone used to witness C2. -/
def zWitness2 : Zone :=
  ⟨[1, 2, 3, 4], [5, 6, 7, 8], [9, 10, 11, 12], [1, 2, 3, 4], [("Other", [1])], []⟩

/-- Witness for C2, instantiated on `zWitness2`. -/
theorem compute_cc_dist_refines_seq_p1_witness :
    zWitness2.connec.length % 4 = 0 ∧ 0 < zWitness2.connec.length ∧
    (∀ c ∈ zWitness2.connec, 1 ≤ c ∧ c ≤ (zWitness2.cx.length : Int)) ∧
    zWitness2.cy.length = zWitness2.cx.length ∧
    zWitness2.cz.length = zWitness2.cx.length ∧
    compute_cc_dist zWitness2 [zWitness2.cx] [zWitness2.cy] [zWitness2.cz] =
      compute_cc_seq zWitness2 :=
  ⟨by decide, by decide, by decide, rfl, rfl,
    compute_cc_dist_refines_seq_p1 zWitness2 (by decide) (by decide) (by decide) rfl rfl⟩

/-- C10.  Frame effect: both compute functions leave the coordinate arrays, the
connectivity and every other node of the zone untouched, and only append one
FlowSolution named `Centers` at `CellCenter` with fields CCX, CCY, CCZ.  The
Python originals mutate the tree in place and return `None`; the embedding
renders that effect as the returned zone, whose only change is this node. -/
theorem compute_frame_effect (z : Zone) (cxs cys czs : List (List ℚ)) :
    ((compute_cc_seq z).cx = z.cx ∧ (compute_cc_seq z).cy = z.cy ∧
      (compute_cc_seq z).cz = z.cz ∧ (compute_cc_seq z).connec = z.connec ∧
      (compute_cc_seq z).otherNodes = z.otherNodes ∧
      ∃ mx my mz, (compute_cc_seq z).flowSols =
        z.flowSols ++ [⟨"Centers", "CellCenter", [("CCX", mx), ("CCY", my), ("CCZ", mz)]⟩]) ∧
    ((compute_cc_dist z cxs cys czs).cx = z.cx ∧ (compute_cc_dist z cxs cys czs).cy = z.cy ∧
      (compute_cc_dist z cxs cys czs).cz = z.cz ∧
      (compute_cc_dist z cxs cys czs).connec = z.connec ∧
      (compute_cc_dist z cxs cys czs).otherNodes = z.otherNodes ∧
      ∃ mx my mz, (compute_cc_dist z cxs cys czs).flowSols =
        z.flowSols ++ [⟨"Centers", "CellCenter", [("CCX", mx), ("CCY", my), ("CCZ", mz)]⟩]) :=
  ⟨⟨rfl, rfl, rfl, rfl, rfl, ⟨_, _, _, rfl⟩⟩,
    ⟨rfl, rfl, rfl, rfl, rfl, ⟨_, _, _, rfl⟩⟩⟩

end MaiaSpec
